import Mathlib

/-!
Verification of the multi-armed bandit arm-selection library (`bandit.go`).

Shallow embedding conventions:
* Go `float64` values are modelled as exact rationals `ℚ`; `math.Exp` is
  modelled by an explicit weight-function parameter `expf : ℚ → ℚ` (the
  theorems assume only the properties of the real exponential they need,
  chiefly positivity).  A separate small IEEE-style type `GoFloat` captures
  the NaN/Inf propagation that matters for temperature `τ = 0`.
* Go `int` is modelled as `ℤ` where the value is caller-supplied (arm
  ordinals, loop results) and as `ℕ` for slice lengths / arm counts.
* The per-instance random source is modelled by passing the drawn values as
  explicit arguments (`u` for `rand.Float64()`, `n` for `rand.Intn(arms)`);
  re-seeding it is a no-op in the model.
* A Go method on a receiver becomes a function `state → args → state × result`;
  a method that can panic (out-of-range slice indexing) returns an `Option`
  (`none` = panic) or, for `GetVariant`, an explicit `GoResult` with a
  `panic` outcome alongside `ok`/`err`.
-/

namespace Bandit

/-- State of the `epsilonGreedy` struct: per-arm pull `counts`, per-arm
running-mean `values`, the policy parameter `epsilon` and the arm count. -/
structure EpsilonGreedy where
  counts : List ℤ
  values : List ℚ
  epsilon : ℚ
  arms : ℕ
  deriving DecidableEq, Repr

/-- `EpsilonGreedyNew`: rejects `epsilon` outside `[0,1]`, otherwise returns
a bandit with all counts and values zero. -/
def EpsilonGreedyNew (arms : ℕ) (epsilon : ℚ) : Except String EpsilonGreedy :=
  if ¬(0 ≤ epsilon ∧ epsilon ≤ 1) then
    Except.error "epsilon not in [0, 1]"
  else
    Except.ok ⟨List.replicate arms 0, List.replicate arms 0, epsilon, arms⟩

/-- The exploit scan of `epsilonGreedy.SelectArm`:
`arm := 0; for i := range values { if values[i] > values[arm] { arm = i } }`. -/
def bestArm (values : List ℚ) : ℕ :=
  (List.range values.length).foldl
    (fun arm i => if values.getD arm 0 < values.getD i 0 then i else arm) 0

/-- `epsilonGreedy.SelectArm`.  `u` models the draw `e.rand.Float64()` and
`n` models `e.rand.Intn(e.arms)`.  Increments the chosen arm's counter and
returns the state together with `arm + 1`. -/
def EpsilonGreedy.selectArm (e : EpsilonGreedy) (u : ℚ) (n : ℕ) :
    EpsilonGreedy × ℤ :=
  let arm := if e.epsilon < u then bestArm e.values else n
  ({ e with counts := e.counts.set arm (e.counts.getD arm 0 + 1) },
   (arm : ℤ) + 1)

/-- `epsilonGreedy.Update`: 1-based `arm` is shifted down, the counter is
incremented, and the running mean is updated with the incremented counter.
Out-of-range indexing panics in Go, modelled by `none`. -/
def EpsilonGreedy.update (e : EpsilonGreedy) (arm : ℤ) (reward : ℚ) :
    Option EpsilonGreedy :=
  let a := arm - 1
  if 0 ≤ a ∧ a.toNat < e.counts.length ∧ a.toNat < e.values.length then
    let i := a.toNat
    let count := e.counts.getD i 0 + 1
    some { e with
      counts := e.counts.set i count,
      values := e.values.set i
        ((e.values.getD i 0 * ((count : ℚ) - 1) + reward) / (count : ℚ)) }
  else
    none

/-- Two-decimal rendering used by `%.2f` in `Version()`.  The exact rounding
mode of Go's `fmt` is immaterial to the properties proved here; what matters
is that the output is a function of the formatted parameter alone. -/
def fmt2 (q : ℚ) : String :=
  let n : ℤ := round (q * 100)
  let sign := if n < 0 then "-" else ""
  let m := n.natAbs
  let frac := m % 100
  let fracStr := if frac < 10 then "0" ++ toString frac else toString frac
  sign ++ toString (m / 100) ++ "." ++ fracStr

/-- `epsilonGreedy.Version`. -/
def EpsilonGreedy.version (e : EpsilonGreedy) : String :=
  "EpsilonGreedy(epsilon=" ++ fmt2 e.epsilon ++ ")"

/-- `epsilonGreedy.Reset`: fresh all-zero slices of length `arms`; the
re-seeding of the random source has no model-level content. -/
def EpsilonGreedy.reset (e : EpsilonGreedy) : EpsilonGreedy :=
  { e with
    counts := List.replicate e.arms 0,
    values := List.replicate e.arms 0 }

/-- State of the `softmax` struct. -/
structure Softmax where
  counts : List ℤ
  values : List ℚ
  tau : ℚ
  arms : ℕ
  deriving DecidableEq, Repr

/-- `SoftmaxNew`: rejects `τ < 0`, otherwise returns a bandit with all counts
and values zero. -/
def SoftmaxNew (arms : ℕ) (tau : ℚ) : Except String Softmax :=
  if ¬(0 ≤ tau) then
    Except.error "τ not in [0, ∞]"
  else
    Except.ok ⟨List.replicate arms 0, List.replicate arms 0, tau, arms⟩

/-- The sampling loop of `softmax.SelectArm`:
`accum := 0; for i, p := range distribution { accum += p; if accum > z { return i } }`.
`some i` is the early return, `none` the fall-through. -/
def smLoop (z : ℚ) : List ℚ → ℚ → ℕ → Option ℕ
  | [], _, _ => none
  | p :: rest, accum, i =>
    let accum' := accum + p
    if z < accum' then some i else smLoop z rest accum' (i + 1)

/-- The local `z` of `softmax.SelectArm`: the partition sum
`z := Σ exp(value/τ)` accumulated by the first loop. -/
def softmaxZ (expf : ℚ → ℚ) (s : Softmax) : ℚ :=
  s.values.foldl (fun acc value => acc + expf (value / s.tau)) 0

/-- The local `distribution` of `softmax.SelectArm`:
`distribution[i] = exp(value_i/τ) / z`. -/
def softmaxDistribution (expf : ℚ → ℚ) (s : Softmax) : List ℚ :=
  s.values.map (fun value => expf (value / s.tau) / softmaxZ expf s)

/-- `softmax.SelectArm` with `math.Exp` modelled by `expf`.  Note the source
mutates nothing (no counter update, the random source is not even consulted)
and returns the bare loop index `i`, or `len(distribution) - 1` on
fall-through — with no `+ 1`. -/
def Softmax.selectArm (expf : ℚ → ℚ) (s : Softmax) : Softmax × ℤ :=
  (s,
   match smLoop (softmaxZ expf s) (softmaxDistribution expf s) 0 0 with
   | some i => (i : ℤ)
   | none => ((softmaxDistribution expf s).length : ℤ) - 1)

/-- `softmax.Update`: textually identical to `epsilonGreedy.Update`. -/
def Softmax.update (s : Softmax) (arm : ℤ) (reward : ℚ) : Option Softmax :=
  let a := arm - 1
  if 0 ≤ a ∧ a.toNat < s.counts.length ∧ a.toNat < s.values.length then
    let i := a.toNat
    let count := s.counts.getD i 0 + 1
    some { s with
      counts := s.counts.set i count,
      values := s.values.set i
        ((s.values.getD i 0 * ((count : ℚ) - 1) + reward) / (count : ℚ)) }
  else
    none

/-- `softmax.Version`. -/
def Softmax.version (s : Softmax) : String :=
  "Softmax(tau=" ++ fmt2 s.tau ++ ")"

/-- `softmax.Reset`. -/
def Softmax.reset (s : Softmax) : Softmax :=
  { s with
    counts := List.replicate s.arms 0,
    values := List.replicate s.arms 0 }

/-!  IEEE-style view of `float64` for the `τ = 0` analysis.  Only the
behaviour exercised by `softmax.SelectArm` on division by zero matters:
`0/0 = NaN`, `x/0 = ±Inf` for `x ≠ 0`, NaN propagates through `+`, `/` and
`exp`, and every ordered comparison involving NaN is false.  Signed zero is
not distinguished (no proved statement depends on it). -/

/-- A `float64` as used by the softmax arithmetic: NaN, the infinities, or a
finite value (modelled exactly as a rational). -/
inductive GoFloat where
  | nan : GoFloat
  | inf : GoFloat
  | neginf : GoFloat
  | fin : ℚ → GoFloat
  deriving DecidableEq, Repr

namespace GoFloat

/-- IEEE addition on the model (NaN-propagating, `Inf + (-Inf) = NaN`). -/
def add : GoFloat → GoFloat → GoFloat
  | nan, _ => nan
  | _, nan => nan
  | inf, neginf => nan
  | neginf, inf => nan
  | inf, _ => inf
  | _, inf => inf
  | neginf, _ => neginf
  | _, neginf => neginf
  | fin a, fin b => fin (a + b)

/-- IEEE division on the model: `0/0 = NaN`, `a/0 = ±Inf` for finite
`a ≠ 0`, `Inf/Inf = NaN`, finite/`±Inf` collapses to zero. -/
def div : GoFloat → GoFloat → GoFloat
  | nan, _ => nan
  | _, nan => nan
  | inf, inf => nan
  | inf, neginf => nan
  | neginf, inf => nan
  | neginf, neginf => nan
  | inf, fin b => if b < 0 then neginf else inf
  | neginf, fin b => if b < 0 then inf else neginf
  | fin _, inf => fin 0
  | fin _, neginf => fin 0
  | fin a, fin b =>
    if b = 0 then
      (if a = 0 then nan else if 0 < a then inf else neginf)
    else fin (a / b)

/-- `math.Exp` on the model: `exp NaN = NaN`, `exp Inf = Inf`,
`exp (-Inf) = 0`; on finite arguments the (transcendental) value is supplied
by the parameter `E`. -/
def exp (E : ℚ → ℚ) : GoFloat → GoFloat
  | nan => nan
  | inf => inf
  | neginf => fin 0
  | fin q => fin (E q)

/-- IEEE `>` on the model; any comparison with NaN is false. -/
def gt : GoFloat → GoFloat → Bool
  | nan, _ => false
  | _, nan => false
  | inf, inf => false
  | inf, _ => true
  | neginf, _ => false
  | fin _, inf => false
  | fin _, neginf => true
  | fin a, fin b => decide (b < a)

end GoFloat

/-- The sampling loop of `softmax.SelectArm` at the `GoFloat` level. -/
def smLoopF (z : GoFloat) : List GoFloat → GoFloat → ℕ → Option ℕ
  | [], _, _ => none
  | p :: rest, accum, i =>
    let accum' := accum.add p
    if accum'.gt z then some i else smLoopF z rest accum' (i + 1)

/-- `softmax.SelectArm` at the `GoFloat` level (used to analyse `τ = 0`,
where `value/τ` divides by zero).  `E` supplies `math.Exp` on finite
arguments; it is irrelevant whenever every weight is already NaN. -/
def softmaxSelectArmF (E : ℚ → ℚ) (values : List GoFloat) (tau : GoFloat) : ℤ :=
  let z := values.foldl (fun acc value => acc.add (GoFloat.exp E (value.div tau))) (.fin 0)
  let distribution := values.map (fun value => (GoFloat.exp E (value.div tau)).div z)
  match smLoopF z distribution (.fin 0) 0 with
  | some i => (i : ℤ)
  | none => (distribution.length : ℤ) - 1

/-!  The Experiment / Variant / Trial model and the experiment parser. -/

/-- `Variant`: one arm of an experiment (1-indexed `Ordinal`, opaque `URL`,
externally visible `Tag`). -/
structure Variant where
  Ordinal : ℤ
  URL : String
  Tag : String
  deriving DecidableEq, Repr

/-- `Experiment`: a named ordered collection of variants. -/
structure Experiment where
  Name : String
  Variants : List Variant
  deriving DecidableEq, Repr

/-- Outcome of a Go function that can return a value, return an error, or
panic (out-of-range slice indexing). -/
inductive GoResult (α : Type) where
  | ok : α → GoResult α
  | err : String → GoResult α
  | panic : GoResult α
  deriving DecidableEq, Repr

/-- `Experiment.GetVariant`: guard `ordinal < 0 || ordinal > len(Variants)`
returns an error; otherwise the source indexes `e.Variants[ordinal-1]`,
which panics when `ordinal - 1` is out of range (notably at `ordinal = 0`). -/
def Experiment.GetVariant (e : Experiment) (ordinal : ℤ) : GoResult Variant :=
  if ordinal < 0 ∨ (e.Variants.length : ℤ) < ordinal then
    GoResult.err ("ordinal " ++ toString ordinal ++ " not in [1," ++
      toString e.Variants.length ++ "]")
  else if h : 0 ≤ ordinal - 1 ∧ (ordinal - 1).toNat < e.Variants.length then
    GoResult.ok (e.Variants.get ⟨(ordinal - 1).toNat, h.2⟩)
  else
    GoResult.panic

/-- Counts maximal runs of non-whitespace characters (the Boolean argument
records whether the previous character was part of a run). -/
def countFields : List Char → Bool → ℕ
  | [], _ => 0
  | c :: rest, inWord =>
    if c.isWhitespace then countFields rest false
    else (if inWord then 0 else 1) + countFields rest true

/-- `len(strings.Fields(s))`: the number of whitespace-separated tokens. -/
def fieldsCount (s : String) : ℕ :=
  countFields s.data false

/-- Decimal digit accumulation for `strconv.Atoi`. -/
def digitsAux : List Char → ℕ → Option ℕ
  | [], acc => some acc
  | c :: rest, acc =>
    if c.isDigit then digitsAux rest (acc * 10 + (c.toNat - '0'.toNat)) else none

/-- All-digit parse (at least one digit required). -/
def digitsOf : List Char → Option ℕ
  | [] => none
  | l => digitsAux l 0

/-- `strconv.Atoi`: optional sign followed by decimal digits (the model
ignores Go's fixed-width overflow, which no claim exercises). -/
def atoi (s : String) : Option ℤ :=
  match s.data with
  | '-' :: rest => (digitsOf rest).map (fun n => -(n : ℤ))
  | '+' :: rest => (digitsOf rest).map (fun n => (n : ℤ))
  | l => (digitsOf l).map (fun n => (n : ℤ))

/-- Character-list version of `strings.HasPrefix`. -/
def prefixedL : List Char → List Char → Bool
  | [], _ => true
  | _ :: _, [] => false
  | a :: as, b :: bs => a = b && prefixedL as bs

/-- `strings.HasPrefix(s, pre)`: does `s` start with `pre`? -/
def prefixed (pre s : String) : Bool :=
  prefixedL pre.data s.data

/-- Appending a parsed variant to its experiment's group
(`variants[name] = append(variants[name], ...)`).  Go's map is modelled as
an association list in first-insertion order; map iteration order in Go is
unspecified, and no proved statement depends on the order beyond grouping. -/
def addVariant : List (String × List Variant) → String → Variant →
    List (String × List Variant)
  | [], name, v => [(name, [v])]
  | (n, vs) :: rest, name, v =>
    if n = name then (n, vs ++ [v]) :: rest
    else (n, vs) :: addVariant rest name v

/-- The per-record validation loop of `ParseExperiments` (the file and CSV
reading are out of scope; input starts from the decoded records).  `i` is the
running line index used in the ordinal error message. -/
def parseRecords : ℕ → List (List String) → List (String × List Variant) →
    Except String (List (String × List Variant))
  | _, [], groups => Except.ok groups
  | i, r :: rs, groups =>
    if r.length ≠ 4 then
      Except.error ("record is not " ++ toString r.length ++ " long")
    else
      match atoi (r.getD 1 "") with
      | none => Except.error ("invalid ordinal on line " ++ toString i)
      | some ordinal =>
        let name := r.getD 0 ""
        if fieldsCount name ≠ 1 then
          Except.error ("experiment has whitespace: " ++ name)
        else
          let tag := r.getD 3 ""
          if fieldsCount tag ≠ 1 then
            Except.error ("tag has whitespace: " ++ tag)
          else if ¬ prefixed (name ++ ":") tag then
            Except.error ("tag must start with '" ++ name ++ ":'")
          else
            parseRecords (i + 1) rs
              (addVariant groups name ⟨ordinal, r.getD 2 "", tag⟩)

/-- Insertion step of the ordinal sort. -/
def insertVariant (v : Variant) : List Variant → List Variant
  | [] => [v]
  | w :: rest =>
    if v.Ordinal ≤ w.Ordinal then v :: w :: rest else w :: insertVariant v rest

/-- `sort.Sort(variants)` with `Less` comparing ordinals: modelled by a
structural insertion sort.  Go's quicksort is unstable, but every comparison
sort produces the same ascending sequence of ordinals, which is all the
contiguity check reads. -/
def sortVariants : List Variant → List Variant
  | [] => []
  | v :: rest => insertVariant v (sortVariants rest)

/-- The contiguity scan over one (sorted) experiment group:
`for i ...: if ord := variants[i].Ordinal; ord != i+1 { error }`. -/
def checkVariants (name : String) : ℕ → List Variant → Except String Unit
  | _, [] => Except.ok ()
  | i, v :: rest =>
    if v.Ordinal ≠ (i : ℤ) + 1 then
      Except.error (name ++ ": variant " ++ toString v.Ordinal ++ " noncontiguous")
    else
      checkVariants name (i + 1) rest

/-- The contiguity check over all experiment groups. -/
def checkGroups : List (String × List Variant) → Except String Unit
  | [] => Except.ok ()
  | (n, vs) :: rest =>
    match checkVariants n 0 vs with
    | Except.error e => Except.error e
    | Except.ok _ => checkGroups rest

/-- `ParseExperiments`, from the decoded tab-separated records onward:
validate and group the records, sort each group by ordinal, fail if any
group's ordinals are not exactly `1..n`, otherwise return the experiments
(as an association list standing for the Go map). -/
def ParseExperiments (records : List (List String)) :
    Except String (List (String × Experiment)) :=
  match parseRecords 0 records [] with
  | Except.error e => Except.error e
  | Except.ok groups =>
    let sorted := groups.map (fun p => (p.1, sortVariants p.2))
    match checkGroups sorted with
    | Except.error e => Except.error e
    | Except.ok _ => Except.ok (sorted.map (fun p => (p.1, Experiment.mk p.1 p.2)))

/-- Boolean version of "this sorted group's ordinals are exactly
`k, k+1, ...`" (instantiated at `k = 1`); used to state hypotheses about the
contiguity check in a decidable way. -/
def contiguousFrom : ℤ → List Variant → Bool
  | _, [] => true
  | k, v :: rest => v.Ordinal = k && contiguousFrom (k + 1) rest

/-- `n` consecutive `Update(arm, r)` calls (used to state the running-mean
property of §8 of the spec). -/
def iterUpdate : ℕ → EpsilonGreedy → ℤ → ℚ → Option EpsilonGreedy
  | 0, e, _, _ => some e
  | k + 1, e, arm, r => (iterUpdate k e arm r).bind (fun e' => e'.update arm r)

/-- `n` consecutive `Update(arm, r)` calls on a softmax bandit. -/
def iterUpdateS : ℕ → Softmax → ℤ → ℚ → Option Softmax
  | 0, s, _, _ => some s
  | k + 1, s, arm, r => (iterUpdateS k s arm r).bind (fun s' => s'.update arm r)

/-!  ## Helper lemmas -/

theorem getD_set_self {α : Type} (l : List α) (i : ℕ) (a d : α)
    (h : i < l.length) : (l.set i a).getD i d = a := by
  simp [List.getD_eq_getElem?_getD, List.getElem?_set, h]

theorem getD_replicate_eq {α : Type} (n i : ℕ) (a d : α) (h : i < n) :
    (List.replicate n a).getD i d = a := by
  simp [List.getD_eq_getElem?_getD, List.getElem?_replicate, h]

theorem selectArm_snd (e : EpsilonGreedy) (u : ℚ) (n : ℕ) :
    (e.selectArm u n).2 =
      ((if e.epsilon < u then bestArm e.values else n : ℕ) : ℤ) + 1 := rfl

theorem selectArm_fst (e : EpsilonGreedy) (u : ℚ) (n : ℕ) :
    (e.selectArm u n).1.counts =
      e.counts.set (if e.epsilon < u then bestArm e.values else n)
        (e.counts.getD (if e.epsilon < u then bestArm e.values else n) 0 + 1) := rfl

theorem foldArgmax (v : ℕ → ℚ) :
    ∀ n : ℕ, 1 ≤ n →
      (List.range n).foldl (fun arm i => if v arm < v i then i else arm) 0 < n ∧
      (∀ k, k < n →
        v k ≤ v ((List.range n).foldl (fun arm i => if v arm < v i then i else arm) 0)) ∧
      (∀ k, k < (List.range n).foldl (fun arm i => if v arm < v i then i else arm) 0 →
        v k < v ((List.range n).foldl (fun arm i => if v arm < v i then i else arm) 0)) := by
  intro n
  induction n with
  | zero => intro h; exact absurd h (by omega)
  | succ m ih =>
    intro _
    rcases Nat.eq_zero_or_pos m with hm | hm
    · subst hm
      have hr1 : List.range 1 = [0] := by simpa using List.range_succ (n := 0)
      have hfold :
          (List.range 1).foldl (fun arm i => if v arm < v i then i else arm) 0 = 0 := by
        rw [hr1]; simp
      rw [hfold]
      refine ⟨by omega, ?_, ?_⟩
      · intro k hk
        have hk0 : k = 0 := by omega
        subst hk0
        exact le_refl _
      · intro k hk
        exact absurd hk (by omega)
    · obtain ⟨h1, h2, h3⟩ := ih hm
      have hr : List.range (m + 1) = List.range m ++ [m] := by
        simpa using List.range_succ (n := m)
      have hfold :
          (List.range (m + 1)).foldl (fun arm i => if v arm < v i then i else arm) 0 =
            (if v ((List.range m).foldl (fun arm i => if v arm < v i then i else arm) 0) < v m
             then m
             else (List.range m).foldl (fun arm i => if v arm < v i then i else arm) 0) := by
        rw [hr, List.foldl_append]
        simp
      set j := (List.range m).foldl (fun arm i => if v arm < v i then i else arm) 0 with hj
      rw [hfold]
      by_cases hcmp : v j < v m
      · rw [if_pos hcmp]
        refine ⟨by omega, ?_, ?_⟩
        · intro k hk
          rcases Nat.lt_succ_iff_lt_or_eq.mp hk with hk' | hk'
          · exact le_trans (h2 k hk') (le_of_lt hcmp)
          · subst hk'; exact le_refl _
        · intro k hk
          exact lt_of_le_of_lt (h2 k hk) hcmp
      · rw [if_neg hcmp]
        refine ⟨by omega, ?_, h3⟩
        intro k hk
        rcases Nat.lt_succ_iff_lt_or_eq.mp hk with hk' | hk'
        · exact h2 k hk'
        · subst hk'; exact le_of_not_lt hcmp

theorem bestArm_spec (values : List ℚ) (h : values ≠ []) :
    bestArm values < values.length ∧
    (∀ k, k < values.length →
      values.getD k 0 ≤ values.getD (bestArm values) 0) ∧
    (∀ k, k < bestArm values →
      values.getD k 0 < values.getD (bestArm values) 0) := by
  have hlen : 1 ≤ values.length := List.length_pos.mpr h
  exact foldArgmax (fun k => values.getD k 0) values.length hlen

theorem chosenArm_lt (e : EpsilonGreedy) (u : ℚ) (n : ℕ)
    (hn : n < e.arms) (hvlen : e.values.length = e.arms) :
    (if e.epsilon < u then bestArm e.values else n) < e.arms := by
  by_cases hcmp : e.epsilon < u
  · rw [if_pos hcmp, ← hvlen]
    refine (bestArm_spec e.values ?_).1
    intro hnil
    rw [hnil] at hvlen
    simp at hvlen
    omega
  · rw [if_neg hcmp]; exact hn

/-!  ## Claims -/

/-- C7: `EpsilonGreedyNew` fails exactly when `epsilon ∉ [0,1]` and
`SoftmaxNew` fails exactly when `¬ (τ ≥ 0)`; in the valid domain each
returns a bandit with all counts and values zero. -/
theorem C7_constructor_domains (arms : ℕ) (epsilon tau : ℚ) :
    ((0 ≤ epsilon ∧ epsilon ≤ 1) →
      EpsilonGreedyNew arms epsilon =
        Except.ok ⟨List.replicate arms 0, List.replicate arms 0, epsilon, arms⟩) ∧
    (¬(0 ≤ epsilon ∧ epsilon ≤ 1) →
      EpsilonGreedyNew arms epsilon = Except.error "epsilon not in [0, 1]") ∧
    (0 ≤ tau →
      SoftmaxNew arms tau =
        Except.ok ⟨List.replicate arms 0, List.replicate arms 0, tau, arms⟩) ∧
    (¬0 ≤ tau → SoftmaxNew arms tau = Except.error "τ not in [0, ∞]") := by
  refine ⟨fun h => ?_, fun h => ?_, fun h => ?_, fun h => ?_⟩ <;>
    simp [EpsilonGreedyNew, SoftmaxNew, h]

/-- Witness for C7 at concrete parameters. -/
theorem C7_witness :
    EpsilonGreedyNew 2 (1/2) = Except.ok ⟨[0, 0], [0, 0], 1/2, 2⟩ ∧
    EpsilonGreedyNew 2 2 = Except.error "epsilon not in [0, 1]" ∧
    SoftmaxNew 2 1 = Except.ok ⟨[0, 0], [0, 0], 1, 2⟩ ∧
    SoftmaxNew 2 (-1) = Except.error "τ not in [0, ∞]" := by
  refine ⟨?_, ?_, ?_, ?_⟩
  · simpa using (C7_constructor_domains 2 (1/2) 1).1 (by norm_num)
  · exact (C7_constructor_domains 2 2 1).2.1 (by norm_num)
  · simpa using (C7_constructor_domains 2 (1/2) 1).2.2.1 (by norm_num)
  · exact (C7_constructor_domains 2 (1/2) (-1)).2.2.2 (by norm_num)

/-- C9: `Reset` returns counts and values to all-zero slices of length
`arms`, leaves the policy parameter untouched, and hence `Version()` is
unchanged across a reset. -/
theorem C9_reset (e : EpsilonGreedy) (s : Softmax) :
    e.reset = ⟨List.replicate e.arms 0, List.replicate e.arms 0, e.epsilon, e.arms⟩ ∧
    e.reset.version = e.version ∧
    s.reset = ⟨List.replicate s.arms 0, List.replicate s.arms 0, s.tau, s.arms⟩ ∧
    s.reset.version = s.version :=
  ⟨rfl, rfl, rfl, rfl⟩

/-- C5: for `ordinal < 0` or `ordinal > len(Variants)` `GetVariant` does
return the range error, but `ordinal = 0` passes the guard
(`ordinal < 0 || ordinal > l`) and indexes `Variants[-1]`: a panic, not an
error. -/
theorem C5_getVariant_range :
    (∀ (e : Experiment) (ordinal : ℤ),
      ordinal < 0 ∨ (e.Variants.length : ℤ) < ordinal →
      e.GetVariant ordinal =
        GoResult.err ("ordinal " ++ toString ordinal ++ " not in [1," ++
          toString e.Variants.length ++ "]")) ∧
    Experiment.GetVariant ⟨"exp", [⟨1, "/a", "exp:a"⟩]⟩ 0 = GoResult.panic := by
  constructor
  · intro e ordinal h
    simp [Experiment.GetVariant, h]
  · rfl

/-- Witness for C5 at a concrete negative ordinal. -/
theorem C5_witness :
    Experiment.GetVariant ⟨"exp", [⟨1, "/a", "exp:a"⟩]⟩ (-1) =
      GoResult.err ("ordinal " ++ toString (-1 : ℤ) ++ " not in [1," ++
        toString (1 : ℕ) ++ "]") :=
  C5_getVariant_range.1 ⟨"exp", [⟨1, "/a", "exp:a"⟩]⟩ (-1) (by norm_num)

/-- C1: the epsilon-greedy `SelectArm` does return an ordinal in `[1, arms]`
for every state with `len(values) = arms` and every pair of random draws,
but the softmax `SelectArm` returns the bare 0-based loop index: on a fresh
1-arm softmax bandit it returns `0`, outside `[1, 1]`, whatever the value of
`math.Exp`. -/
theorem C1_selectArm_range :
    (∀ (e : EpsilonGreedy) (u : ℚ) (n : ℕ),
      n < e.arms → e.values.length = e.arms →
      1 ≤ (e.selectArm u n).2 ∧ (e.selectArm u n).2 ≤ (e.arms : ℤ)) ∧
    (∀ expf : ℚ → ℚ, (Softmax.selectArm expf ⟨[0], [0], 1, 1⟩).2 = 0) := by
  constructor
  · intro e u n hn hvlen
    have harm := chosenArm_lt e u n hn hvlen
    rw [selectArm_snd]
    constructor <;> omega
  · intro expf
    simp only [Softmax.selectArm, softmaxDistribution, softmaxZ, List.foldl_cons,
      List.foldl_nil, List.map_cons, List.map_nil, smLoop]
    split <;> simp_all

/-- Witness for C1: the epsilon-greedy bound at a concrete state and the
softmax evaluation at a concrete weight function. -/
theorem C1_witness :
    (1 ≤ (EpsilonGreedy.selectArm ⟨[0, 0], [0, 0], 1/2, 2⟩ (3/4) 0).2 ∧
      (EpsilonGreedy.selectArm ⟨[0, 0], [0, 0], 1/2, 2⟩ (3/4) 0).2 ≤ ((2 : ℕ) : ℤ)) ∧
    (Softmax.selectArm (fun _ => (1 : ℚ)) ⟨[0], [0], 1, 1⟩).2 = 0 :=
  ⟨C1_selectArm_range.1 ⟨[0, 0], [0, 0], 1/2, 2⟩ (3/4) 0 (by norm_num) rfl,
   C1_selectArm_range.2 (fun _ => (1 : ℚ))⟩

/-- C8: when the uniform draw exceeds epsilon, `SelectArm` returns one plus
the scan result, and the scan result is the lowest index attaining the
maximal value (a later arm replaces the candidate only when strictly
greater). -/
theorem C8_exploit_first_maximal (e : EpsilonGreedy) (u : ℚ) (n : ℕ)
    (hu : e.epsilon < u) (hne : e.values ≠ []) :
    (e.selectArm u n).2 = (bestArm e.values : ℤ) + 1 ∧
    bestArm e.values < e.values.length ∧
    (∀ k, k < e.values.length →
      e.values.getD k 0 ≤ e.values.getD (bestArm e.values) 0) ∧
    (∀ k, k < bestArm e.values →
      e.values.getD k 0 < e.values.getD (bestArm e.values) 0) := by
  obtain ⟨h1, h2, h3⟩ := bestArm_spec e.values hne
  refine ⟨?_, h1, h2, h3⟩
  rw [selectArm_snd, if_pos hu]

/-- Witness for C8: on values `[1, 3, 3, 2]` the exploit branch returns
ordinal 2 (arm index 1, the first of the two maximal arms). -/
theorem C8_witness :
    (EpsilonGreedy.selectArm ⟨[0, 0, 0, 0], [1, 3, 3, 2], 1/2, 4⟩ (3/4) 0).2 = 2 := by
  have h := C8_exploit_first_maximal ⟨[0, 0, 0, 0], [1, 3, 3, 2], 1/2, 4⟩ (3/4) 0
    (by norm_num) (by simp)
  rw [h.1]
  decide

theorem GoFloat.nan_add (a : GoFloat) : GoFloat.nan.add a = GoFloat.nan := by
  cases a <;> rfl

theorem GoFloat.add_nan (a : GoFloat) : a.add GoFloat.nan = GoFloat.nan := by
  cases a <;> rfl

theorem GoFloat.gt_nan (a : GoFloat) : a.gt GoFloat.nan = false := by
  cases a <;> rfl

theorem foldl_add_nan (g : GoFloat → GoFloat) (l : List GoFloat) :
    l.foldl (fun acc v => acc.add (g v)) GoFloat.nan = GoFloat.nan := by
  induction l with
  | nil => rfl
  | cons x xs ih =>
    rw [List.foldl_cons, GoFloat.nan_add]
    exact ih

theorem smLoopF_nan_replicate :
    ∀ (k : ℕ) (acc : GoFloat) (i : ℕ),
      smLoopF GoFloat.nan (List.replicate k GoFloat.nan) acc i = none := by
  intro k
  induction k with
  | zero => intro acc i; rfl
  | succ m ih =>
    intro acc i
    rw [List.replicate_succ]
    simp only [smLoopF, GoFloat.add_nan, GoFloat.gt_nan]
    exact ih GoFloat.nan (i + 1)

/-- C10: `SoftmaxNew` accepts `τ = 0`; on a fresh such bandit every weight
is `exp(0/0) = exp(NaN) = NaN`, every comparison in the sampling loop is
false, and `SelectArm` returns `len(values) - 1` — which for a 1-arm bandit
is `0`, outside `[1, arms]`.  The finite part `E` of `math.Exp` is never
reached. -/
theorem C10_tau_zero (E : ℚ → ℚ) (arms : ℕ) (h : 1 ≤ arms) :
    SoftmaxNew arms 0 =
      Except.ok ⟨List.replicate arms 0, List.replicate arms 0, 0, arms⟩ ∧
    softmaxSelectArmF E (List.replicate arms (GoFloat.fin 0)) (GoFloat.fin 0) =
      (arms : ℤ) - 1 ∧
    softmaxSelectArmF E [GoFloat.fin 0] (GoFloat.fin 0) = 0 := by
  refine ⟨by simp [SoftmaxNew], ?_, rfl⟩
  obtain ⟨m, rfl⟩ : ∃ m, arms = m + 1 := ⟨arms - 1, by omega⟩
  have hz : (List.replicate (m + 1) (GoFloat.fin 0)).foldl
      (fun acc value => acc.add (GoFloat.exp E (value.div (GoFloat.fin 0))))
      (GoFloat.fin 0) = GoFloat.nan := by
    rw [List.replicate_succ, List.foldl_cons]
    exact foldl_add_nan _ _
  have hdist : (List.replicate (m + 1) (GoFloat.fin 0)).map
      (fun value => (GoFloat.exp E (value.div (GoFloat.fin 0))).div GoFloat.nan) =
      List.replicate (m + 1) GoFloat.nan := by
    rw [List.map_replicate]; rfl
  simp only [softmaxSelectArmF, hz, hdist, smLoopF_nan_replicate,
    List.length_replicate]

/-- Witness for C10 at one arm with the identity standing in for the finite
part of `exp`. -/
theorem C10_witness :
    SoftmaxNew 1 0 = Except.ok ⟨[0], [0], 0, 1⟩ ∧
    softmaxSelectArmF (fun q => q) [GoFloat.fin 0] (GoFloat.fin 0) = 0 := by
  have h := C10_tau_zero (fun q => q) 1 (by norm_num)
  exact ⟨by simpa using h.1, h.2.2⟩

theorem foldl_add_eq_sum (w : ℚ → ℚ) :
    ∀ (l : List ℚ) (c : ℚ), l.foldl (fun acc x => acc + w x) c = c + (l.map w).sum := by
  intro l
  induction l with
  | nil => intro c; simp
  | cons x xs ih => intro c; simp [ih, add_assoc]

theorem sum_map_div (w : ℚ → ℚ) (z : ℚ) :
    ∀ l : List ℚ, (l.map (fun x => w x / z)).sum = (l.map w).sum / z := by
  intro l
  induction l with
  | nil => simp
  | cons x xs ih => simp [ih, add_div]

theorem smLoop_none (z : ℚ) :
    ∀ (ps : List ℚ) (accum : ℚ) (i : ℕ),
      (∀ p ∈ ps, 0 ≤ p) → accum + ps.sum ≤ z → smLoop z ps accum i = none := by
  intro ps
  induction ps with
  | nil => intro accum i _ _; rfl
  | cons p rest ih =>
    intro accum i hpos hsum
    have hkey : accum + p + rest.sum ≤ z := by
      rw [List.sum_cons] at hsum; linarith
    have hrest : 0 ≤ rest.sum :=
      List.sum_nonneg (fun a ha => hpos a (List.mem_cons_of_mem _ ha))
    simp only [smLoop]
    rw [if_neg (by push_neg; linarith)]
    exact ih (accum + p) (i + 1) (fun a ha => hpos a (List.mem_cons_of_mem _ ha)) hkey

/-- C2 (amended): whenever the partition sum `z` is at least 1 — in
particular on any state whose values are all nonnegative, e.g. a fresh
bandit — the accumulated probabilities sum to 1 and never exceed `z`, so
the loop's early return never fires and `SelectArm` returns the last
(0-based) index `len - 1`.  (When `z < 1` the early return can fire; see
the counterexample.) -/
theorem C2_fallthrough_last_arm (expf : ℚ → ℚ) (s : Softmax)
    (hpos : ∀ x, 0 < expf x) (hz : 1 ≤ softmaxZ expf s) :
    (Softmax.selectArm expf s).2 = (s.values.length : ℤ) - 1 := by
  have hz0 : 0 < softmaxZ expf s := by linarith
  have hzsum : softmaxZ expf s = (s.values.map (fun x => expf (x / s.tau))).sum := by
    rw [softmaxZ]
    simpa using foldl_add_eq_sum (fun x => expf (x / s.tau)) s.values 0
  have hloop : smLoop (softmaxZ expf s) (softmaxDistribution expf s) 0 0 = none := by
    apply smLoop_none
    · intro p hp
      obtain ⟨x, _, rfl⟩ := List.mem_map.mp hp
      exact div_nonneg (le_of_lt (hpos _)) (le_of_lt hz0)
    · rw [softmaxDistribution, sum_map_div (fun x => expf (x / s.tau)), ← hzsum,
        div_self (ne_of_gt hz0), zero_add]
      exact hz
  rw [softmaxDistribution] at hloop
  simp only [Softmax.selectArm, softmaxDistribution, hloop, List.length_map]

/-- Counterexample to C2 as stated: on values `[-2, -2]` with `τ = 1` the
partition sum is `z = 2·exp(-2) ≈ 0.27 < 1`, the first accumulated
probability `1/2` already exceeds `z`, and the early return fires with arm
index 0 — not the last arm.  `math.Exp` is modelled at the one point where
it is evaluated: `exp(-2) ≈ 0.1353 = 27/200` (any positive value below 1/4
produces the same outcome). -/
theorem C2_counterexample :
    (Softmax.selectArm (fun _ => (27/200 : ℚ)) ⟨[0, 0], [-2, -2], 1, 2⟩).2 ≠
      (((⟨[0, 0], [-2, -2], 1, 2⟩ : Softmax).values.length : ℕ) : ℤ) - 1 := by
  norm_num [Softmax.selectArm, softmaxDistribution, softmaxZ, smLoop]

/-- Witness for C2 on a fresh two-arm bandit with a constant positive
weight function. -/
theorem C2_witness :
    (Softmax.selectArm (fun _ => (1 : ℚ)) ⟨[0, 0], [0, 0], 1, 2⟩).2 =
      (((⟨[0, 0], [0, 0], 1, 2⟩ : Softmax).values.length : ℕ) : ℤ) - 1 :=
  C2_fallthrough_last_arm (fun _ => (1 : ℚ)) ⟨[0, 0], [0, 0], 1, 2⟩
    (fun _ => one_pos) (by norm_num [softmaxZ])

/-- C3: the epsilon-greedy `SelectArm` does increment the returned arm's
counter by one, but the softmax `SelectArm` mutates nothing at all: its
state output equals its state input, so a full Select→Update cycle on a
softmax bandit increments a counter exactly once (in `Update`), not twice.
The last conjunct evaluates a full cycle on a fresh two-arm softmax bandit:
the final counts are `[1, 0]` — no counter reaches 2. -/
theorem C3_select_increment :
    (∀ (expf : ℚ → ℚ) (s : Softmax), (Softmax.selectArm expf s).1 = s) ∧
    (∀ (e : EpsilonGreedy) (u : ℚ) (n : ℕ),
      n < e.arms → e.values.length = e.arms → e.counts.length = e.arms →
      (e.selectArm u n).1.counts.getD ((e.selectArm u n).2 - 1).toNat 0 =
        e.counts.getD ((e.selectArm u n).2 - 1).toNat 0 + 1) ∧
    Softmax.update ((Softmax.selectArm (fun _ => (1 : ℚ)) ⟨[0, 0], [0, 0], 1, 2⟩).1)
        ((Softmax.selectArm (fun _ => (1 : ℚ)) ⟨[0, 0], [0, 0], 1, 2⟩).2) 5 =
      some ⟨[1, 0], [5, 0], 1, 2⟩ := by
  refine ⟨fun expf s => rfl, ?_,
    by norm_num [Softmax.selectArm, Softmax.update, softmaxDistribution, softmaxZ, smLoop]⟩
  intro e u n hn hvlen hclen
  have harm := chosenArm_lt e u n hn hvlen
  rw [selectArm_snd, selectArm_fst]
  have htn : (((if e.epsilon < u then bestArm e.values else n : ℕ) : ℤ) + 1 - 1).toNat =
      (if e.epsilon < u then bestArm e.values else n) := by omega
  rw [htn]
  exact getD_set_self _ _ _ _ (by omega)

/-- Witness for C3's epsilon-greedy conjunct at a concrete state. -/
theorem C3_witness :
    (EpsilonGreedy.selectArm ⟨[0, 0], [1, 2], 1/2, 2⟩ (3/4) 0).1.counts.getD
        ((EpsilonGreedy.selectArm ⟨[0, 0], [1, 2], 1/2, 2⟩ (3/4) 0).2 - 1).toNat 0 =
      (⟨[0, 0], [1, 2], 1/2, 2⟩ : EpsilonGreedy).counts.getD
        ((EpsilonGreedy.selectArm ⟨[0, 0], [1, 2], 1/2, 2⟩ (3/4) 0).2 - 1).toNat 0 + 1 :=
  C3_select_increment.2.1 ⟨[0, 0], [1, 2], 1/2, 2⟩ (3/4) 0 (by norm_num) rfl rfl

theorem iterUpdate_const (arms : ℕ) (epsilon : ℚ) (arm : ℤ) (r : ℚ)
    (h1 : 1 ≤ arm) (h2 : arm ≤ (arms : ℤ)) :
    ∀ n : ℕ, 1 ≤ n →
      iterUpdate n ⟨List.replicate arms 0, List.replicate arms 0, epsilon, arms⟩ arm r =
        some ⟨(List.replicate arms (0 : ℤ)).set (arm - 1).toNat (n : ℤ),
              (List.replicate arms (0 : ℚ)).set (arm - 1).toNat r, epsilon, arms⟩ := by
  have h0 : 0 ≤ arm - 1 := by omega
  have hi : (arm - 1).toNat < arms := by omega
  intro n
  induction n with
  | zero => intro h; exact absurd h (by omega)
  | succ m ih =>
    intro _
    rcases Nat.eq_zero_or_pos m with hm | hm
    · subst hm
      simp only [iterUpdate, Option.some_bind]
      simp only [EpsilonGreedy.update]
      rw [if_pos ⟨h0, by simpa using hi, by simpa using hi⟩]
      rw [getD_replicate_eq arms (arm - 1).toNat (0 : ℤ) 0 hi,
        getD_replicate_eq arms (arm - 1).toNat (0 : ℚ) 0 hi]
      norm_num
    · have ihm := ih hm
      simp only [iterUpdate] at ihm ⊢
      rw [ihm, Option.some_bind]
      simp only [EpsilonGreedy.update]
      rw [if_pos ⟨h0, by simpa using hi, by simpa using hi⟩]
      rw [getD_set_self (List.replicate arms (0 : ℤ)) (arm - 1).toNat (m : ℤ) 0
          (by simpa using hi),
        getD_set_self (List.replicate arms (0 : ℚ)) (arm - 1).toNat r 0
          (by simpa using hi),
        List.set_set, List.set_set]
      have hm0 : ((m : ℚ) + 1) ≠ 0 := by positivity
      have hval : (r * ((((m : ℤ) + 1 : ℤ) : ℚ) - 1) + r) / (((m : ℤ) + 1 : ℤ) : ℚ) = r := by
        push_cast
        rw [div_eq_iff hm0]
        ring
      have hcast : ((m : ℤ) + 1) = ((m + 1 : ℕ) : ℤ) := by omega
      rw [hval, hcast]

theorem iterUpdateS_const (arms : ℕ) (tau : ℚ) (arm : ℤ) (r : ℚ)
    (h1 : 1 ≤ arm) (h2 : arm ≤ (arms : ℤ)) :
    ∀ n : ℕ, 1 ≤ n →
      iterUpdateS n ⟨List.replicate arms 0, List.replicate arms 0, tau, arms⟩ arm r =
        some ⟨(List.replicate arms (0 : ℤ)).set (arm - 1).toNat (n : ℤ),
              (List.replicate arms (0 : ℚ)).set (arm - 1).toNat r, tau, arms⟩ := by
  have h0 : 0 ≤ arm - 1 := by omega
  have hi : (arm - 1).toNat < arms := by omega
  intro n
  induction n with
  | zero => intro h; exact absurd h (by omega)
  | succ m ih =>
    intro _
    rcases Nat.eq_zero_or_pos m with hm | hm
    · subst hm
      simp only [iterUpdateS, Option.some_bind]
      simp only [Softmax.update]
      rw [if_pos ⟨h0, by simpa using hi, by simpa using hi⟩]
      rw [getD_replicate_eq arms (arm - 1).toNat (0 : ℤ) 0 hi,
        getD_replicate_eq arms (arm - 1).toNat (0 : ℚ) 0 hi]
      norm_num
    · have ihm := ih hm
      simp only [iterUpdateS] at ihm ⊢
      rw [ihm, Option.some_bind]
      simp only [Softmax.update]
      rw [if_pos ⟨h0, by simpa using hi, by simpa using hi⟩]
      rw [getD_set_self (List.replicate arms (0 : ℤ)) (arm - 1).toNat (m : ℤ) 0
          (by simpa using hi),
        getD_set_self (List.replicate arms (0 : ℚ)) (arm - 1).toNat r 0
          (by simpa using hi),
        List.set_set, List.set_set]
      have hm0 : ((m : ℚ) + 1) ≠ 0 := by positivity
      have hval : (r * ((((m : ℤ) + 1 : ℤ) : ℚ) - 1) + r) / (((m : ℤ) + 1 : ℤ) : ℚ) = r := by
        push_cast
        rw [div_eq_iff hm0]
        ring
      have hcast : ((m : ℤ) + 1) = ((m + 1 : ℕ) : ℤ) := by omega
      rw [hval, hcast]

/-- C4: for both strategies, `Update` increments the arm's counter and
replaces the arm's value by `(value*(count-1) + reward)/count` with `count`
the incremented counter; consequently `n ≥ 1` consecutive `Update(arm, r)`
calls on a fresh bandit of either strategy leave the arm's running mean
exactly `r` (exact rational arithmetic models the float computation) and its
counter equal to `n`. -/
theorem C4_update_running_mean :
    (∀ (e e' : EpsilonGreedy) (arm : ℤ) (r : ℚ),
      e.update arm r = some e' →
      e'.counts.getD (arm - 1).toNat 0 = e.counts.getD (arm - 1).toNat 0 + 1 ∧
      e'.values.getD (arm - 1).toNat 0 =
        (e.values.getD (arm - 1).toNat 0 *
            (((e.counts.getD (arm - 1).toNat 0 + 1 : ℤ) : ℚ) - 1) + r) /
          ((e.counts.getD (arm - 1).toNat 0 + 1 : ℤ) : ℚ)) ∧
    (∀ (s s' : Softmax) (arm : ℤ) (r : ℚ),
      s.update arm r = some s' →
      s'.counts.getD (arm - 1).toNat 0 = s.counts.getD (arm - 1).toNat 0 + 1 ∧
      s'.values.getD (arm - 1).toNat 0 =
        (s.values.getD (arm - 1).toNat 0 *
            (((s.counts.getD (arm - 1).toNat 0 + 1 : ℤ) : ℚ) - 1) + r) /
          ((s.counts.getD (arm - 1).toNat 0 + 1 : ℤ) : ℚ)) ∧
    (∀ (arms : ℕ) (epsilon : ℚ) (arm : ℤ) (r : ℚ) (n : ℕ),
      1 ≤ arm → arm ≤ (arms : ℤ) → 1 ≤ n →
      (iterUpdate n ⟨List.replicate arms 0, List.replicate arms 0, epsilon, arms⟩ arm r).map
          (fun e' => (e'.values.getD (arm - 1).toNat 0, e'.counts.getD (arm - 1).toNat 0)) =
        some (r, (n : ℤ))) ∧
    (∀ (arms : ℕ) (tau : ℚ) (arm : ℤ) (r : ℚ) (n : ℕ),
      1 ≤ arm → arm ≤ (arms : ℤ) → 1 ≤ n →
      (iterUpdateS n ⟨List.replicate arms 0, List.replicate arms 0, tau, arms⟩ arm r).map
          (fun s' => (s'.values.getD (arm - 1).toNat 0, s'.counts.getD (arm - 1).toNat 0)) =
        some (r, (n : ℤ))) := by
  refine ⟨?_, ?_, ?_, ?_⟩
  · intro e e' arm r h
    simp only [EpsilonGreedy.update] at h
    split at h
    case isFalse => exact absurd h (by simp)
    case isTrue hC =>
      obtain ⟨hC0, hC1, hC2⟩ := hC
      obtain rfl : _ = e' := Option.some.injEq _ _ ▸ h
      constructor
      · exact getD_set_self _ _ _ _ hC1
      · exact getD_set_self _ _ _ _ hC2
  · intro s s' arm r h
    simp only [Softmax.update] at h
    split at h
    case isFalse => exact absurd h (by simp)
    case isTrue hC =>
      obtain ⟨hC0, hC1, hC2⟩ := hC
      obtain rfl : _ = s' := Option.some.injEq _ _ ▸ h
      constructor
      · exact getD_set_self _ _ _ _ hC1
      · exact getD_set_self _ _ _ _ hC2
  · intro arms epsilon arm r n h1 h2 hn
    have hi : (arm - 1).toNat < arms := by omega
    rw [iterUpdate_const arms epsilon arm r h1 h2 n hn]
    rw [Option.map_some']
    rw [getD_set_self (List.replicate arms (0 : ℚ)) (arm - 1).toNat r 0
        (by simpa using hi),
      getD_set_self (List.replicate arms (0 : ℤ)) (arm - 1).toNat (n : ℤ) 0
        (by simpa using hi)]
  · intro arms tau arm r n h1 h2 hn
    have hi : (arm - 1).toNat < arms := by omega
    rw [iterUpdateS_const arms tau arm r h1 h2 n hn]
    rw [Option.map_some']
    rw [getD_set_self (List.replicate arms (0 : ℚ)) (arm - 1).toNat r 0
        (by simpa using hi),
      getD_set_self (List.replicate arms (0 : ℤ)) (arm - 1).toNat (n : ℤ) 0
        (by simpa using hi)]

/-- Witness for C4: one update from counts `[2]`, values `[4]` for each
strategy, and three constant updates with `r = 7/2` on a fresh two-arm
bandit of each strategy. -/
theorem C4_witness :
    ((⟨[3], [11/3], 1/2, 1⟩ : EpsilonGreedy).counts.getD ((1 : ℤ) - 1).toNat 0 =
        (⟨[2], [4], 1/2, 1⟩ : EpsilonGreedy).counts.getD ((1 : ℤ) - 1).toNat 0 + 1 ∧
      (⟨[3], [11/3], 1/2, 1⟩ : EpsilonGreedy).values.getD ((1 : ℤ) - 1).toNat 0 =
        ((⟨[2], [4], 1/2, 1⟩ : EpsilonGreedy).values.getD ((1 : ℤ) - 1).toNat 0 *
            ((((⟨[2], [4], 1/2, 1⟩ : EpsilonGreedy).counts.getD ((1 : ℤ) - 1).toNat 0 +
                1 : ℤ) : ℚ) - 1) + 3) /
          (((⟨[2], [4], 1/2, 1⟩ : EpsilonGreedy).counts.getD ((1 : ℤ) - 1).toNat 0 +
              1 : ℤ) : ℚ)) ∧
    ((⟨[3], [11/3], 1, 1⟩ : Softmax).counts.getD ((1 : ℤ) - 1).toNat 0 =
        (⟨[2], [4], 1, 1⟩ : Softmax).counts.getD ((1 : ℤ) - 1).toNat 0 + 1 ∧
      (⟨[3], [11/3], 1, 1⟩ : Softmax).values.getD ((1 : ℤ) - 1).toNat 0 =
        ((⟨[2], [4], 1, 1⟩ : Softmax).values.getD ((1 : ℤ) - 1).toNat 0 *
            ((((⟨[2], [4], 1, 1⟩ : Softmax).counts.getD ((1 : ℤ) - 1).toNat 0 +
                1 : ℤ) : ℚ) - 1) + 3) /
          (((⟨[2], [4], 1, 1⟩ : Softmax).counts.getD ((1 : ℤ) - 1).toNat 0 +
              1 : ℤ) : ℚ)) ∧
    (iterUpdate 3 ⟨List.replicate 2 0, List.replicate 2 0, 1/2, 2⟩ 1 (7/2)).map
        (fun e' => (e'.values.getD ((1 : ℤ) - 1).toNat 0, e'.counts.getD ((1 : ℤ) - 1).toNat 0)) =
      some (7/2, ((3 : ℕ) : ℤ)) ∧
    (iterUpdateS 3 ⟨List.replicate 2 0, List.replicate 2 0, 1, 2⟩ 1 (7/2)).map
        (fun s' => (s'.values.getD ((1 : ℤ) - 1).toNat 0, s'.counts.getD ((1 : ℤ) - 1).toNat 0)) =
      some (7/2, ((3 : ℕ) : ℤ)) := by
  refine ⟨C4_update_running_mean.1 ⟨[2], [4], 1/2, 1⟩ ⟨[3], [11/3], 1/2, 1⟩ 1 3 ?_,
    C4_update_running_mean.2.1 ⟨[2], [4], 1, 1⟩ ⟨[3], [11/3], 1, 1⟩ 1 3 ?_,
    C4_update_running_mean.2.2.1 2 (1/2) 1 (7/2) 3 (by norm_num) (by norm_num) (by norm_num),
    C4_update_running_mean.2.2.2 2 1 1 (7/2) 3 (by norm_num) (by norm_num) (by norm_num)⟩
  · norm_num [EpsilonGreedy.update]
  · norm_num [Softmax.update]

theorem checkVariants_ok (name : String) :
    ∀ (vs : List Variant) (i : ℕ), contiguousFrom ((i : ℤ) + 1) vs = true →
      checkVariants name i vs = Except.ok () := by
  intro vs
  induction vs with
  | nil => intro i _; rfl
  | cons v rest ih =>
    intro i h
    simp only [contiguousFrom, Bool.and_eq_true, decide_eq_true_eq] at h
    obtain ⟨h1, h2⟩ := h
    simp only [checkVariants]
    rw [if_neg (by simp [h1])]
    apply ih
    have hc : (((i + 1 : ℕ) : ℤ) + 1) = ((i : ℤ) + 1 + 1) := by push_cast; ring
    rw [hc]
    exact h2

theorem checkVariants_err (name : String) :
    ∀ (vs : List Variant) (i : ℕ), contiguousFrom ((i : ℤ) + 1) vs = false →
      ∃ j : ℕ, j < vs.length ∧
        checkVariants name i vs =
          Except.error (name ++ ": variant " ++
            toString (vs.getD j ⟨0, "", ""⟩).Ordinal ++ " noncontiguous") ∧
        (vs.getD j ⟨0, "", ""⟩).Ordinal ≠ (i : ℤ) + (j : ℤ) + 1 := by
  intro vs
  induction vs with
  | nil => intro i h; simp [contiguousFrom] at h
  | cons v rest ih =>
    intro i h
    by_cases hv : v.Ordinal = (i : ℤ) + 1
    · have htail : contiguousFrom ((i : ℤ) + 1 + 1) rest = false := by
        simpa [contiguousFrom, hv] using h
      have hc : (((i + 1 : ℕ) : ℤ) + 1) = ((i : ℤ) + 1 + 1) := by push_cast; ring
      obtain ⟨j, hj, heq, hne⟩ := ih (i + 1) (by rw [hc]; exact htail)
      refine ⟨j + 1, by simpa using Nat.succ_lt_succ hj, ?_, ?_⟩
      · simp only [checkVariants]
        rw [if_neg (by simp [hv])]
        simpa using heq
      · rw [List.getD_cons_succ]
        intro hcon
        exact hne (by push_cast at hcon ⊢; omega)
    · refine ⟨0, by simp, ?_, ?_⟩
      · simp only [checkVariants]
        rw [if_pos (by simpa using hv)]
        rfl
      · simpa using hv

theorem checkGroups_err :
    ∀ gs : List (String × List Variant),
      (∃ p ∈ gs, contiguousFrom 1 p.2 = false) →
      ∃ (name : String) (ord : ℤ),
        checkGroups gs =
          Except.error (name ++ ": variant " ++ toString ord ++ " noncontiguous") ∧
        ∃ p ∈ gs, p.1 = name ∧ ∃ j : ℕ, j < p.2.length ∧
          (p.2.getD j ⟨0, "", ""⟩).Ordinal = ord ∧ ord ≠ (j : ℤ) + 1 := by
  intro gs
  induction gs with
  | nil => rintro ⟨p, hp, _⟩; exact absurd hp (List.not_mem_nil p)
  | cons g rest ih =>
    rintro ⟨p, hp, hbad⟩
    obtain ⟨n, vs⟩ := g
    by_cases hc : contiguousFrom 1 vs = true
    · have hok : checkVariants n 0 vs = Except.ok () := by
        apply checkVariants_ok
        simpa using hc
      have hprest : p ∈ rest := by
        rcases List.mem_cons.mp hp with rfl | hmem
        · exact absurd hc (by simp [hbad])
        · exact hmem
      obtain ⟨name, ord, herr, q, hq, hqr⟩ := ih ⟨p, hprest, hbad⟩
      refine ⟨name, ord, ?_, q, List.mem_cons_of_mem _ hq, hqr⟩
      simpa only [checkGroups, hok] using herr
    · have hfalse : contiguousFrom ((0 : ℤ) + 1) vs = false := by
        simpa using Bool.eq_false_iff.mpr (fun ht => hc (by simpa using ht))
      obtain ⟨j, hj, heq, hne⟩ := checkVariants_err n vs 0 (by simpa using hfalse)
      refine ⟨n, (vs.getD j ⟨0, "", ""⟩).Ordinal, ?_,
        (n, vs), List.mem_cons_self _ _, rfl, j, hj, rfl, by simpa using hne⟩
      simp only [checkGroups, heq]

/-- C6: if the records pass all per-record validation (so grouping happens)
and some experiment's ordinals, once sorted, are not exactly `1..n`, then
`ParseExperiments` fails with the noncontiguity error naming an offending
experiment and ordinal, and no experiment set is returned. -/
theorem C6_noncontiguous_ordinals (records : List (List String))
    (groups : List (String × List Variant))
    (hparse : parseRecords 0 records [] = Except.ok groups)
    (hbad : ∃ p ∈ groups, contiguousFrom 1 (sortVariants p.2) = false) :
    ∃ (name : String) (ord : ℤ),
      ParseExperiments records =
        Except.error (name ++ ": variant " ++ toString ord ++ " noncontiguous") ∧
      ∃ p ∈ groups, p.1 = name ∧ ∃ j : ℕ, j < (sortVariants p.2).length ∧
        ((sortVariants p.2).getD j ⟨0, "", ""⟩).Ordinal = ord ∧ ord ≠ (j : ℤ) + 1 := by
  have hbad' : ∃ q ∈ groups.map (fun p => (p.1, sortVariants p.2)),
      contiguousFrom 1 q.2 = false := by
    obtain ⟨p, hp, h⟩ := hbad
    exact ⟨(p.1, sortVariants p.2), List.mem_map_of_mem _ hp, h⟩
  obtain ⟨name, ord, herr, q, hq, hqname, j, hj, hord, hne⟩ :=
    checkGroups_err (groups.map (fun p => (p.1, sortVariants p.2))) hbad'
  obtain ⟨p, hp, rfl⟩ := List.mem_map.mp hq
  refine ⟨name, ord, ?_, p, hp, hqname, j, hj, hord, hne⟩
  simp only [ParseExperiments, hparse, herr]

/-- Witness for C6 on the spec's own example: ordinals `1, 3` for one
experiment. -/
theorem C6_witness :
    ParseExperiments
        [["exp", "1", "/a", "exp:a"], ["exp", "3", "/b", "exp:b"]] =
      Except.error ("exp" ++ ": variant " ++ toString (3 : ℤ) ++ " noncontiguous") := by
  obtain ⟨name, ord, herr, p, hp, hname, j, hj, hord, hne⟩ :=
    C6_noncontiguous_ordinals
      [["exp", "1", "/a", "exp:a"], ["exp", "3", "/b", "exp:b"]]
      [("exp", [⟨1, "/a", "exp:a"⟩, ⟨3, "/b", "exp:b"⟩])]
      (by rfl) (by decide)
  rw [List.mem_singleton] at hp
  subst hp
  subst hname
  have hj2 : j < 2 := by simpa [sortVariants, insertVariant] using hj
  interval_cases j
  · exact absurd (by simpa [sortVariants, insertVariant] using hord) (by
      intro h
      rw [← h] at hne
      simp at hne)
  · rw [show ord = 3 by simpa [sortVariants, insertVariant] using hord.symm] at herr
    exact herr

end Bandit
